import Mathlib

/-!
Verification of `neetcode_150_gpt/fix_tags.py`.

The program is shallowly embedded over `List Char` (Python `str`), with
`Option` for Python `None` and `Except` for the per-file exception boundary.
Python's regex operations are modelled at ASCII level:

* `\s` is the ASCII whitespace class (space, tab, LF, CR, VT, FF);
* `str.lower()` is ASCII lowercasing (codepoints 65..90 shifted by 32);
* `re.split(r"\s*,\s*", s)` splits `s` at each comma together with the
  whitespace run immediately before and after it (the regex consumes
  exactly that, by leftmost-greedy matching);
* `re.split(r"\s+", t)` splits `t` at each maximal whitespace run;
* `re.sub(r"\s+", " ", t)` replaces each maximal whitespace run by one space.

All functions are structurally recursive, so every theorem below can be
checked on concrete inputs by `decide`.
-/

/-- ASCII model of the Python regex class `\s` (and of `str.strip`):
space, tab, newline, carriage return, vertical tab, form feed. -/
def isWS (c : Char) : Bool :=
  c.toNat = 32 || c.toNat = 9 || c.toNat = 10 || c.toNat = 13 ||
    c.toNat = 11 || c.toNat = 12

/-- ASCII model of Python `str.lower` applied to one character. -/
def toLowerCh (c : Char) : Char :=
  if 65 ≤ c.toNat ∧ c.toNat ≤ 90 then Char.ofNat (c.toNat + 32) else c

/-- Python `s.lower()`. -/
def lowerStr (l : List Char) : List Char := l.map toLowerCh

/-- Python `s.replace(" ", "_")`. -/
def underscore (l : List Char) : List Char :=
  l.map (fun c => if c = ' ' then '_' else c)

/-- Python `s.lstrip()` (whitespace from the left). -/
def lstrip (l : List Char) : List Char := l.dropWhile isWS

/-- Python `s.rstrip()` (whitespace from the right). -/
def rstrip (l : List Char) : List Char := (l.reverse.dropWhile isWS).reverse

/-- Python `s.strip()`. -/
def strip (l : List Char) : List Char := rstrip (lstrip l)

/-- Plain split of a string at every comma (`s.split(",")`). -/
def splitComma : List Char → List (List Char)
  | [] => [[]]
  | c :: rest =>
    if c = ',' then [] :: splitComma rest
    else
      match splitComma rest with
      | [] => [[c]]
      | p :: ps => (c :: p) :: ps

/-- Trim the pieces that follow the first comma of a `\s*,\s*` split:
every such piece loses its leading whitespace (eaten by the separator
before it), and all but the last also lose their trailing whitespace
(eaten by the separator after them). -/
def trimTail : List (List Char) → List (List Char)
  | [] => []
  | [p] => [lstrip p]
  | p :: q :: ps => strip p :: trimTail (q :: ps)

/-- Python `re.split(r"\s*,\s*", s)`: split at each comma, the separator
also consuming the whitespace run immediately before and after the comma.
With no comma in `s` the regex never matches and the result is `[s]`. -/
def re_split_comma_ws (s : List Char) : List (List Char) :=
  match splitComma s with
  | [] => []
  | [p] => [p]
  | p :: q :: ps => rstrip p :: trimTail (q :: ps)

/-- Python `re.split(r"\s+", s)`: split at each maximal whitespace run. -/
def wsSplit : List Char → List (List Char)
  | [] => [[]]
  | [c] => if isWS c then [[], []] else [[c]]
  | c :: d :: rest =>
    if isWS c then
      if isWS d then wsSplit (d :: rest)
      else [] :: wsSplit (d :: rest)
    else
      match wsSplit (d :: rest) with
      | [] => [[c]]
      | p :: ps => (c :: p) :: ps

/-- Python `re.sub(r"\s+", " ", s)`: each maximal whitespace run becomes
a single space. -/
def collapseWS : List Char → List Char
  | [] => []
  | [c] => if isWS c then [' '] else [c]
  | c :: d :: rest =>
    if isWS c then
      if isWS d then collapseWS (d :: rest)
      else ' ' :: collapseWS (d :: rest)
    else c :: collapseWS (d :: rest)

/-- The per-part cleaning step of `normalize_tag_cell`:
`p = re.sub(r"\s+", " ", p.strip()); if not p: continue;
p = p.lower().replace(" ", "_")`.  Returns `none` for a part that is
discarded because it became empty. -/
def cleanOpt (p : List Char) : Option (List Char) :=
  if collapseWS (strip p) = [] then none
  else some (underscore (lowerStr (collapseWS (strip p))))

/-- The ordered deduplication loop of `normalize_tag_cell`, with the
`seen` set carried as a list. -/
def dedupGo (seen : List (List Char)) : List (List Char) → List (List Char)
  | [] => []
  | t :: ts => if t ∈ seen then dedupGo seen ts else t :: dedupGo (t :: seen) ts

/-- Deduplicate preserving first-occurrence order. -/
def dedupTags (l : List (List Char)) : List (List Char) := dedupGo [] l

/-- Python `" ".join(ts)`. -/
def joinSp : List (List Char) → List Char
  | [] => []
  | [t] => t
  | t :: q :: ts => t ++ ' ' :: joinSp (q :: ts)

/-- Python `s.split(" ")`: split at every single space character. -/
def spaceSplit : List Char → List (List Char)
  | [] => [[]]
  | c :: rest =>
    if c = ' ' then [] :: spaceSplit rest
    else
      match spaceSplit rest with
      | [] => [[c]]
      | p :: ps => (c :: p) :: ps

/-- The candidate parts of a cell in `normalize_tag_cell`: the non-empty
pieces of the comma split, or, when there are none (`if not parts:`), the
non-empty pieces of the whitespace split of the stripped cell. -/
def partsOf (s : List Char) : List (List Char) :=
  if (re_split_comma_ws s).filter (fun p => decide (p ≠ [])) = [] then
    (wsSplit (strip s)).filter (fun p => decide (p ≠ []))
  else (re_split_comma_ws s).filter (fun p => decide (p ≠ []))

/-- `normalize_tag_cell` from `fix_tags.py`.  A `none` cell is Python
`None`.  Comma-primary split, whitespace fallback when the comma split
yields no non-empty part, per-part cleaning, ordered deduplication, and
a single-space join. -/
def normalize_tag_cell (cell : Option (List Char)) : List Char :=
  match cell with
  | none => []
  | some s => joinSp (dedupTags ((partsOf s).filterMap cleanOpt))

/-- The header name searched for, `"tags"`. -/
def tagsLit : List Char := ['t', 'a', 'g', 's']

/-- The header scan of `process_csv_file`: first column whose stripped,
lowercased text is `"tags"`, indices counted from `i`. -/
def findTagsIdxFrom (i : Nat) : List (List Char) → Option Nat
  | [] => none
  | col :: cols =>
    if lowerStr (strip col) = tagsLit then some i else findTagsIdxFrom (i + 1) cols

/-- Locate the `Tags` column in a header row. -/
def findTagsIdx (header : List (List Char)) : Option Nat :=
  findTagsIdxFrom 0 header

/-- The per-row transformation of `process_csv_file`: if index `i` is in
range, replace the cell there with its normalized form; shorter rows are
passed through untouched. -/
def fixRow (i : Nat) (r : List (List Char)) : List (List Char) :=
  match r[i]? with
  | some cell => r.set i (normalize_tag_cell (some cell))
  | none => r

/-- The row-level content of `process_csv_file`: the rows written to the
output file, as a function of the rows read from the input file (CSV
encoding and decoding are inverse and are not modelled). -/
def process_rows (rows : List (List (List Char))) : List (List (List Char)) :=
  match rows with
  | [] => []
  | header :: rest =>
    match findTagsIdx header with
    | none => header :: rest
    | some i => header :: rest.map (fixRow i)

/-- The literal `"ok"`. -/
def okLit : List Char := ['o', 'k']

/-- The literal `"error: "`. -/
def errLit : List Char := ['e', 'r', 'r', 'o', 'r', ':', ' ']

/-- One iteration of the report loop of `process_folder`.  The outcome of
`process_csv_file` on one file is modelled as an `Except` value: `ok` with
the output file name, or `error` with the exception message.  The `try`
block appends `(name, "ok", out)` on success and the `except` block
appends `(name, "error: " ++ msg, "")` on an exception. -/
def runFileEntry (f : List Char → Except (List Char) (List Char))
    (n : List Char) : List Char × List Char × List Char :=
  match f n with
  | Except.ok out => (n, okLit, out)
  | Except.error e => (n, errLit ++ e, [])

/-- The report accumulated by `process_folder` over its (sorted) file
list: one entry per file, in order. -/
def process_folder_report (f : List Char → Except (List Char) (List Char))
    (files : List (List Char)) : List (List Char × List Char × List Char) :=
  files.map (runFileEntry f)

/-! ## Character-level lemmas -/

theorem toNat_ofNat_valid (n : Nat) (h : n.isValidChar) : (Char.ofNat n).toNat = n := by
  simp [Char.ofNat, h, Char.ofNatAux, Char.toNat, UInt32.toNat]

theorem toNat_ofNat_small (n : Nat) (h : n < 55296) : (Char.ofNat n).toNat = n :=
  toNat_ofNat_valid n (Or.inl h)

theorem toLowerCh_toNat (c : Char) :
    (toLowerCh c).toNat = if 65 ≤ c.toNat ∧ c.toNat ≤ 90 then c.toNat + 32 else c.toNat := by
  unfold toLowerCh
  split
  · next h => exact toNat_ofNat_small _ (by omega)
  · rfl

theorem toLowerCh_not_upper (c : Char) :
    ¬(65 ≤ (toLowerCh c).toNat ∧ (toLowerCh c).toNat ≤ 90) := by
  have h := toLowerCh_toNat c
  by_cases hc : 65 ≤ c.toNat ∧ c.toNat ≤ 90
  · rw [if_pos hc] at h; omega
  · rw [if_neg hc] at h; omega

theorem toLowerCh_idem (c : Char) : toLowerCh (toLowerCh c) = toLowerCh c := by
  have h := toLowerCh_not_upper c
  conv_lhs => rw [toLowerCh]
  rw [if_neg h]

theorem isWS_iff (c : Char) : isWS c = true ↔
    (c.toNat = 32 ∨ c.toNat = 9 ∨ c.toNat = 10 ∨ c.toNat = 13 ∨
      c.toNat = 11 ∨ c.toNat = 12) := by
  simp [isWS]
  omega

theorem isWS_toLowerCh (c : Char) : isWS (toLowerCh c) = isWS c := by
  have h := toLowerCh_toNat c
  by_cases hc : 65 ≤ c.toNat ∧ c.toNat ≤ 90
  · rw [if_pos hc] at h
    have h1 : isWS (toLowerCh c) = false := by
      rw [← Bool.not_eq_true, isWS_iff]; omega
    have h2 : isWS c = false := by
      rw [← Bool.not_eq_true, isWS_iff]; omega
    rw [h1, h2]
  · rw [if_neg hc] at h
    unfold toLowerCh
    rw [if_neg hc]

theorem toLowerCh_eq_comma (c : Char) (h : toLowerCh c = ',') : c = ',' := by
  by_cases hc : 65 ≤ c.toNat ∧ c.toNat ≤ 90
  · have h1 := toLowerCh_toNat c
    rw [if_pos hc, h] at h1
    simp at h1
    omega
  · unfold toLowerCh at h
    rw [if_neg hc] at h
    exact h

theorem ws_ne_space_elim (c : Char) (h : isWS c = false) : c ≠ ' ' := by
  intro he
  rw [he] at h
  simp [isWS] at h

/-! ## strip lemmas -/

theorem lstrip_eq_self (l : List Char) (h : ∀ c ∈ l, isWS c = false) :
    lstrip l = l := by
  cases l with
  | nil => rfl
  | cons c rest =>
    unfold lstrip
    rw [List.dropWhile_cons, h c (List.mem_cons_self c rest)]
    simp

theorem rstrip_eq_self (l : List Char) (h : ∀ c ∈ l, isWS c = false) :
    rstrip l = l := by
  unfold rstrip
  have h2 : ∀ c ∈ l.reverse, isWS c = false := by
    intro c hc; exact h c (List.mem_reverse.mp hc)
  have h3 : l.reverse.dropWhile isWS = l.reverse := by
    cases hr : l.reverse with
    | nil => rfl
    | cons c rest =>
      rw [List.dropWhile_cons]
      have := h2 c (by rw [hr]; exact List.mem_cons_self c rest)
      rw [this]; simp
  rw [h3, List.reverse_reverse]

theorem strip_eq_self (l : List Char) (h : ∀ c ∈ l, isWS c = false) :
    strip l = l := by
  unfold strip
  rw [lstrip_eq_self l h, rstrip_eq_self l h]

theorem mem_lstrip (l : List Char) (c : Char) (h : c ∈ lstrip l) : c ∈ l :=
  (List.dropWhile_sublist isWS).mem h

theorem mem_rstrip (l : List Char) (c : Char) (h : c ∈ rstrip l) : c ∈ l := by
  unfold rstrip at h
  rw [List.mem_reverse] at h
  exact List.mem_reverse.mp ((List.dropWhile_sublist isWS).mem h)

theorem mem_strip (l : List Char) (c : Char) (h : c ∈ strip l) : c ∈ l :=
  mem_lstrip l c (mem_rstrip (lstrip l) c h)

theorem strip_eq_nil_of_ws (l : List Char) (h : ∀ c ∈ l, isWS c = true) :
    strip l = [] := by
  unfold strip lstrip
  rw [List.dropWhile_eq_nil_iff.mpr h]
  rfl

theorem strip_ne_nil (l : List Char) (h : ∃ c ∈ l, isWS c = false) :
    strip l ≠ [] := by
  rcases h with ⟨c, hc, hws⟩
  intro hnil
  unfold strip rstrip at hnil
  have h1 : (lstrip l).reverse.dropWhile isWS = [] := by
    have := congrArg List.reverse hnil
    rw [List.reverse_reverse] at this
    simpa using this
  have h2 : ∀ x ∈ (lstrip l).reverse, isWS x = true := List.dropWhile_eq_nil_iff.mp h1
  have h3 : ∀ x ∈ lstrip l, isWS x = true := by
    intro x hx; exact h2 x (List.mem_reverse.mpr hx)
  have h4 : c ∈ l.takeWhile isWS ∨ c ∈ l.dropWhile isWS := by
    rw [← List.mem_append, List.takeWhile_append_dropWhile]
    exact hc
  cases h4 with
  | inl h5 =>
    have := List.mem_takeWhile_imp h5
    rw [hws] at this
    exact Bool.noConfusion this
  | inr h5 =>
    rw [h3 c h5] at hws
    exact Bool.noConfusion hws

/-! ## collapseWS lemmas -/

theorem collapse_ne_nil : ∀ l : List Char, l ≠ [] → collapseWS l ≠ [] := by
  intro l
  induction l with
  | nil => intro h; exact absurd rfl h
  | cons c rest ih =>
    intro _
    cases rest with
    | nil =>
      unfold collapseWS
      split <;> simp
    | cons d rest2 =>
      unfold collapseWS
      by_cases h1 : isWS c = true
      · rw [if_pos h1]
        by_cases h2 : isWS d = true
        · rw [if_pos h2]; exact ih (by simp)
        · rw [if_neg h2]; simp
      · rw [if_neg h1]; simp

theorem mem_collapse : ∀ (l : List Char) (c : Char), c ∈ collapseWS l → c = ' ' ∨ c ∈ l := by
  intro l
  induction l with
  | nil => intro c h; simp [collapseWS] at h
  | cons a rest ih =>
    intro c h
    cases rest with
    | nil =>
      unfold collapseWS at h
      by_cases h1 : isWS a = true
      · rw [if_pos h1] at h
        simp at h
        exact Or.inl h
      · rw [if_neg h1] at h
        simp at h
        exact Or.inr (by simp [h])
    | cons d rest2 =>
      unfold collapseWS at h
      by_cases h1 : isWS a = true
      · rw [if_pos h1] at h
        by_cases h2 : isWS d = true
        · rw [if_pos h2] at h
          cases ih c h with
          | inl h3 => exact Or.inl h3
          | inr h3 => exact Or.inr (List.mem_cons_of_mem a h3)
        · rw [if_neg h2] at h
          cases h with
          | head => exact Or.inl rfl
          | tail _ h3 =>
            cases ih c h3 with
            | inl h4 => exact Or.inl h4
            | inr h4 => exact Or.inr (List.mem_cons_of_mem a h4)
      · rw [if_neg h1] at h
        cases h with
        | head => exact Or.inr (List.mem_cons_self a _)
        | tail _ h3 =>
          cases ih c h3 with
          | inl h4 => exact Or.inl h4
          | inr h4 => exact Or.inr (List.mem_cons_of_mem a h4)

theorem collapse_ws_is_space : ∀ (l : List Char) (c : Char),
    c ∈ collapseWS l → isWS c = true → c = ' ' := by
  intro l
  induction l with
  | nil => intro c h; simp [collapseWS] at h
  | cons a rest ih =>
    intro c h hws
    cases rest with
    | nil =>
      unfold collapseWS at h
      by_cases h1 : isWS a = true
      · rw [if_pos h1] at h; simpa using h
      · rw [if_neg h1] at h
        simp at h
        rw [h] at hws
        rw [hws] at h1
        exact absurd rfl h1
    | cons d rest2 =>
      unfold collapseWS at h
      by_cases h1 : isWS a = true
      · rw [if_pos h1] at h
        by_cases h2 : isWS d = true
        · rw [if_pos h2] at h
          exact ih c h hws
        · rw [if_neg h2] at h
          cases h with
          | head => rfl
          | tail _ h3 => exact ih c h3 hws
      · rw [if_neg h1] at h
        cases h with
        | head => rw [hws] at h1; exact absurd rfl h1
        | tail _ h3 => exact ih c h3 hws

theorem collapse_eq_self : ∀ l : List Char, (∀ c ∈ l, isWS c = false) →
    collapseWS l = l := by
  intro l
  induction l with
  | nil => intro _; rfl
  | cons a rest ih =>
    intro h
    cases rest with
    | nil =>
      unfold collapseWS
      rw [if_neg]
      rw [h a (List.mem_cons_self a [])]
      simp
    | cons d rest2 =>
      unfold collapseWS
      rw [if_neg (by rw [h a (List.mem_cons_self a _)]; simp)]
      rw [ih (fun c hc => h c (List.mem_cons_of_mem a hc))]

/-! ## Comma-split lemmas -/

theorem splitComma_no_comma : ∀ l : List Char, (',' : Char) ∉ l → splitComma l = [l] := by
  intro l
  induction l with
  | nil => intro _; rfl
  | cons c rest ih =>
    intro h
    unfold splitComma
    rw [if_neg (by intro hc; exact h (hc ▸ List.mem_cons_self c rest))]
    rw [ih (fun hm => h (List.mem_cons_of_mem c hm))]

theorem re_split_no_comma (s : List Char) (h : (',' : Char) ∉ s) :
    re_split_comma_ws s = [s] := by
  unfold re_split_comma_ws
  rw [splitComma_no_comma s h]

/-! ## cleanOpt lemmas -/

theorem cleanOpt_eq_none_iff (p : List Char) :
    cleanOpt p = none ↔ collapseWS (strip p) = [] := by
  unfold cleanOpt
  split <;> simp_all

theorem cleanOpt_eq_some (p t : List Char) (h : cleanOpt p = some t) :
    collapseWS (strip p) ≠ [] ∧ t = underscore (lowerStr (collapseWS (strip p))) := by
  unfold cleanOpt at h
  split at h
  · exact absurd h (by simp)
  · next hne => exact ⟨hne, by injection h with h2; exact h2.symm⟩

theorem tag_inv (p t : List Char) (h : cleanOpt p = some t) :
    t ≠ [] ∧ ∀ c ∈ t, isWS c = false ∧ ¬(65 ≤ c.toNat ∧ c.toNat ≤ 90) ∧ toLowerCh c = c := by
  obtain ⟨hq, ht⟩ := cleanOpt_eq_some p t h
  constructor
  · rw [ht]
    unfold underscore lowerStr
    simp only [ne_eq, List.map_eq_nil_iff]
    exact hq
  · intro c hc
    rw [ht] at hc
    unfold underscore at hc
    rw [List.mem_map] at hc
    obtain ⟨b, hb, hbc⟩ := hc
    unfold lowerStr at hb
    rw [List.mem_map] at hb
    obtain ⟨d, hd, hdb⟩ := hb
    by_cases hsp : b = ' '
    · rw [if_pos hsp] at hbc
      rw [← hbc]
      refine ⟨by simp [isWS], by simp, by simp [toLowerCh]⟩
    · rw [if_neg hsp] at hbc
      rw [← hbc, ← hdb]
      refine ⟨?_, toLowerCh_not_upper d, toLowerCh_idem d⟩
      rw [isWS_toLowerCh]
      by_cases hwd : isWS d = true
      · exfalso
        have := collapse_ws_is_space (strip p) d hd hwd
        rw [this] at hdb
        apply hsp
        rw [← hdb]
        simp [toLowerCh]
      · simpa using hwd

theorem tag_no_comma (p t : List Char) (hp : (',' : Char) ∉ p) (h : cleanOpt p = some t) :
    (',' : Char) ∉ t := by
  obtain ⟨_, ht⟩ := cleanOpt_eq_some p t h
  rw [ht]
  intro hc
  unfold underscore at hc
  rw [List.mem_map] at hc
  obtain ⟨b, hb, hbc⟩ := hc
  by_cases hsp : b = ' '
  · rw [if_pos hsp] at hbc
    exact absurd hbc (by simp)
  · rw [if_neg hsp] at hbc
    unfold lowerStr at hb
    rw [List.mem_map] at hb
    obtain ⟨d, hd, hdb⟩ := hb
    have hd2 : d = ',' := toLowerCh_eq_comma d (by rw [hdb, hbc])
    rw [hd2] at hd
    cases mem_collapse (strip p) ',' hd with
    | inl h2 => exact absurd h2 (by simp)
    | inr h2 => exact hp (mem_strip p ',' h2)

/-! ## Deduplication lemmas -/

theorem mem_dedupGo : ∀ (l seen : List (List Char)) (t : List Char),
    t ∈ dedupGo seen l → t ∈ l := by
  intro l
  induction l with
  | nil => intro seen t h; simp [dedupGo] at h
  | cons a rest ih =>
    intro seen t h
    unfold dedupGo at h
    split at h
    · exact List.mem_cons_of_mem a (ih seen t h)
    · cases h with
      | head => exact List.mem_cons_self a rest
      | tail _ h2 => exact List.mem_cons_of_mem a (ih (a :: seen) t h2)

theorem not_mem_dedupGo : ∀ (l seen : List (List Char)) (x : List Char),
    x ∈ seen → x ∉ dedupGo seen l := by
  intro l
  induction l with
  | nil => intro seen x _ h; simp [dedupGo] at h
  | cons a rest ih =>
    intro seen x hx h
    unfold dedupGo at h
    split at h
    · exact ih seen x hx h
    · next hna =>
      cases h with
      | head => exact hna hx
      | tail _ h2 => exact ih (a :: seen) x (List.mem_cons_of_mem a hx) h2

theorem nodup_dedupGo : ∀ (l seen : List (List Char)), (dedupGo seen l).Nodup := by
  intro l
  induction l with
  | nil => intro seen; simp [dedupGo]
  | cons a rest ih =>
    intro seen
    unfold dedupGo
    split
    · exact ih seen
    · rw [List.nodup_cons]
      exact ⟨not_mem_dedupGo rest (a :: seen) a (List.mem_cons_self a seen), ih (a :: seen)⟩

theorem mem_dedupTags (l : List (List Char)) (t : List Char) (h : t ∈ dedupTags l) :
    t ∈ l :=
  mem_dedupGo l [] t h

theorem nodup_dedupTags (l : List (List Char)) : (dedupTags l).Nodup :=
  nodup_dedupGo l []

/-! ## joinSp and spaceSplit lemmas -/

theorem mem_joinSp : ∀ (ts : List (List Char)) (c : Char),
    c ∈ joinSp ts → c = ' ' ∨ ∃ t ∈ ts, c ∈ t := by
  intro ts
  induction ts with
  | nil => intro c h; simp [joinSp] at h
  | cons t rest ih =>
    intro c h
    cases rest with
    | nil =>
      right
      exact ⟨t, List.mem_cons_self t [], h⟩
    | cons q rest2 =>
      unfold joinSp at h
      rw [List.mem_append] at h
      cases h with
      | inl h2 => exact Or.inr ⟨t, List.mem_cons_self t _, h2⟩
      | inr h2 =>
        cases h2 with
        | head => exact Or.inl rfl
        | tail _ h3 =>
          cases ih c h3 with
          | inl h4 => exact Or.inl h4
          | inr h4 =>
            obtain ⟨u, hu, hcu⟩ := h4
            exact Or.inr ⟨u, List.mem_cons_of_mem t hu, hcu⟩

theorem spaceSplit_ne_nil : ∀ t : List Char, spaceSplit t ≠ [] := by
  intro t
  cases t with
  | nil => simp [spaceSplit]
  | cons c rest =>
    unfold spaceSplit
    split
    · simp
    · split <;> simp

theorem spaceSplit_no_space : ∀ t : List Char, (' ' : Char) ∉ t → spaceSplit t = [t] := by
  intro t
  induction t with
  | nil => intro _; rfl
  | cons c rest ih =>
    intro h
    unfold spaceSplit
    rw [if_neg (by intro hc; exact h (hc ▸ List.mem_cons_self c rest))]
    rw [ih (fun hm => h (List.mem_cons_of_mem c hm))]

theorem spaceSplit_append (t u : List Char) (h : (' ' : Char) ∉ t) :
    spaceSplit (t ++ ' ' :: u) = t :: spaceSplit u := by
  induction t with
  | nil =>
    simp only [List.nil_append]
    conv_lhs => unfold spaceSplit
    rw [if_pos rfl]
  | cons c rest ih =>
    have hc : c ≠ ' ' := by intro hc; exact h (hc ▸ List.mem_cons_self c rest)
    have ih2 := ih (fun hm => h (List.mem_cons_of_mem c hm))
    simp only [List.cons_append]
    conv_lhs => unfold spaceSplit
    rw [if_neg hc, ih2]

theorem spaceSplit_joinSp : ∀ ts : List (List Char), ts ≠ [] →
    (∀ t ∈ ts, (' ' : Char) ∉ t) → spaceSplit (joinSp ts) = ts := by
  intro ts
  induction ts with
  | nil => intro h; exact absurd rfl h
  | cons t rest ih =>
    intro _ h
    cases rest with
    | nil =>
      show spaceSplit (joinSp [t]) = [t]
      rw [show joinSp [t] = t from rfl]
      exact spaceSplit_no_space t (h t (List.mem_cons_self t []))
    | cons q rest2 =>
      show spaceSplit (t ++ ' ' :: joinSp (q :: rest2)) = t :: q :: rest2
      rw [spaceSplit_append _ _ (h t (List.mem_cons_self t _))]
      rw [ih (by simp) (fun u hu => h u (List.mem_cons_of_mem t hu))]

/-! ## Structure of `normalize_tag_cell` -/

theorem partsOf_single (s : List Char) (hc : (',' : Char) ∉ s) (hne : s ≠ []) :
    partsOf s = [s] := by
  have h1 : (([s] : List (List Char)).filter (fun p => decide (p ≠ []))) = [s] := by
    simp [hne]
  unfold partsOf
  rw [re_split_no_comma s hc, h1, if_neg (by simp)]

theorem normalize_single_none (s : List Char) (hc : (',' : Char) ∉ s) (hne : s ≠ [])
    (h : cleanOpt s = none) : normalize_tag_cell (some s) = [] := by
  show joinSp (dedupTags (List.filterMap cleanOpt (partsOf s))) = []
  rw [partsOf_single s hc hne]
  rw [List.filterMap_cons, h]
  rfl

theorem normalize_single_some (s t : List Char) (hc : (',' : Char) ∉ s) (hne : s ≠ [])
    (h : cleanOpt s = some t) : normalize_tag_cell (some s) = t := by
  show joinSp (dedupTags (List.filterMap cleanOpt (partsOf s))) = t
  rw [partsOf_single s hc hne]
  rw [List.filterMap_cons, h]
  rfl

theorem cleanOpt_fixpoint (t : List Char) (h1 : t ≠ [])
    (h2 : ∀ c ∈ t, isWS c = false) (h3 : ∀ c ∈ t, toLowerCh c = c) :
    cleanOpt t = some t := by
  have hl : lowerStr t = t := by
    unfold lowerStr
    conv_rhs => rw [← List.map_id t]
    exact List.map_congr_left (fun a ha => by rw [h3 a ha]; rfl)
  have hu : underscore t = t := by
    unfold underscore
    conv_rhs => rw [← List.map_id t]
    refine List.map_congr_left (fun a ha => ?_)
    rw [if_neg (ws_ne_space_elim a (h2 a ha))]
    rfl
  unfold cleanOpt
  rw [strip_eq_self t h2, collapse_eq_self t h2, if_neg h1, hl, hu]

theorem normalize_fixpoint_single (t : List Char) (h1 : t ≠ [])
    (h2 : ∀ c ∈ t, isWS c = false) (h3 : ∀ c ∈ t, toLowerCh c = c)
    (h4 : (',' : Char) ∉ t) : normalize_tag_cell (some t) = t :=
  normalize_single_some t t h4 h1 (cleanOpt_fixpoint t h1 h2 h3)

theorem normalize_nil : normalize_tag_cell (some []) = [] := by decide

/-! ## Header scan lemma -/

theorem findTagsIdxFrom_none : ∀ (cols : List (List Char)) (k : Nat),
    (∀ col ∈ cols, lowerStr (strip col) ≠ tagsLit) → findTagsIdxFrom k cols = none := by
  intro cols
  induction cols with
  | nil => intro k _; rfl
  | cons col rest ih =>
    intro k h
    unfold findTagsIdxFrom
    rw [if_neg (h col (List.mem_cons_self col rest))]
    exact ih (k + 1) (fun c hc => h c (List.mem_cons_of_mem col hc))

theorem set_getElem?_ne : ∀ (l : List (List Char)) (i j : Nat) (a : List Char),
    i ≠ j → (l.set i a)[j]? = l[j]? := by
  intro l i j a h
  exact List.getElem?_set_ne h

/-! ## Claim theorems -/

/-- C1: the claim says that on the comma-free cell `"Two Pointers Sliding
Window"` the whitespace fallback applies and the result is
`"two pointers sliding window"`.  The code disagrees: the comma split of a
comma-free cell yields the whole cell as its one non-empty part, so the
fallback guard `if not parts:` is false and the cell becomes the single
underscore-joined tag `"two_pointers_sliding_window"` — contrary to the
function's own inline comment promising whitespace splitting when no comma
is present. -/
theorem c1_no_fallback_for_comma_free_cell :
    normalize_tag_cell (some (("Two Pointers Sliding Window").toList)) =
      ("two_pointers_sliding_window").toList ∧
    normalize_tag_cell (some (("Two Pointers Sliding Window").toList)) ≠
      ("two pointers sliding window").toList := by
  constructor
  · decide
  · decide

/-- C2 counterexample: `normalize` is not idempotent.  On
`"Array, Hash Map"` the first pass yields `"array hash_map"`, whose second
pass (being comma-free) is re-cleaned into the single tag
`"array_hash_map"`. -/
theorem c2_not_idempotent :
    ¬(normalize_tag_cell (some (normalize_tag_cell (some (("Array, Hash Map").toList)))) =
      normalize_tag_cell (some (("Array, Hash Map").toList))) := by
  decide

/-- C2 amended: `normalize` is idempotent on every comma-free input.  (The
original claim, idempotence for all strings, fails whenever the first pass
emits two or more tags, since the space-joined result is then re-parsed as
one comma-free cell.) -/
theorem c2_idem_of_no_comma (s : List Char) (h : (',' : Char) ∉ s) :
    normalize_tag_cell (some (normalize_tag_cell (some s))) =
      normalize_tag_cell (some s) := by
  by_cases hne : s = []
  · subst hne
    rw [normalize_nil]
    exact normalize_nil
  · cases hclean : cleanOpt s with
    | none =>
      rw [normalize_single_none s h hne hclean]
      exact normalize_nil
    | some t =>
      rw [normalize_single_some s t h hne hclean]
      obtain ⟨ht1, ht2⟩ := tag_inv s t hclean
      exact normalize_fixpoint_single t ht1 (fun c hc => (ht2 c hc).1)
        (fun c hc => (ht2 c hc).2.2) (tag_no_comma s t h hclean)

/-- C2 amended witness at the comma-free cell `"Two Pointers"`. -/
theorem c2_idem_witness :
    (',' : Char) ∉ (("Two Pointers").toList) ∧
    normalize_tag_cell (some (normalize_tag_cell (some (("Two Pointers").toList)))) =
      normalize_tag_cell (some (("Two Pointers").toList)) :=
  ⟨by decide, c2_idem_of_no_comma _ (by decide)⟩

/-- C3: comma-separated parts are lowercased, internal spaces become
underscores, duplicates are dropped keeping first-occurrence order, and the
tags are joined by single spaces. -/
theorem c3_array_hash_map :
    normalize_tag_cell (some (("Array, Hash Map, array").toList)) =
      ("array hash_map").toList := by
  decide

/-- C4: `normalize` is a total function of the embedded cell (it throws
nothing by construction), and it returns the empty string on `None`, on the
empty string, and on every whitespace-only string. -/
theorem c4_empty_inputs :
    normalize_tag_cell none = [] ∧
    normalize_tag_cell (some []) = [] ∧
    ∀ s : List Char, (∀ c ∈ s, isWS c = true) → normalize_tag_cell (some s) = [] := by
  refine ⟨rfl, normalize_nil, ?_⟩
  intro s h
  by_cases hne : s = []
  · subst hne; exact normalize_nil
  · have hc : (',' : Char) ∉ s := by
      intro hm
      exact absurd (h ',' hm) (by decide)
    apply normalize_single_none s hc hne
    rw [cleanOpt_eq_none_iff, strip_eq_nil_of_ws s h]
    rfl

/-- C4 witness at the whitespace-only cell `" \t "`. -/
theorem c4_ws_witness :
    (∀ c ∈ ((" \t ").toList), isWS c = true) ∧
    normalize_tag_cell (some ((" \t ").toList)) = [] :=
  ⟨by decide, c4_empty_inputs.2.2 _ (by decide)⟩

/-- C5: with the Tags column located at index `i`, the header row is passed
through unchanged and in every data row every cell at an index other than
`i` is unchanged (lengths included); only the cell at index `i` is ever
mutated. -/
theorem c5_frame (header : List (List Char)) (rest : List (List (List Char)))
    (i : Nat) (h : findTagsIdx header = some i) :
    process_rows (header :: rest) = header :: rest.map (fixRow i) ∧
    ∀ r ∈ rest, (fixRow i r).length = r.length ∧
      ∀ j, j ≠ i → (fixRow i r)[j]? = r[j]? := by
  constructor
  · simp [process_rows, h]
  · intro r _
    constructor
    · unfold fixRow
      cases hr : r[i]? with
      | none => rfl
      | some cell => simp
    · intro j hj
      unfold fixRow
      cases hr : r[i]? with
      | none => rfl
      | some cell => exact List.getElem?_set_ne (Ne.symm hj)

/-- C5 witness: a concrete file with the Tags column at index 0; the cell
at index 1 is untouched. -/
theorem c5_witness :
    findTagsIdx [(("Tags").toList)] = some 0 ∧
    (fixRow 0 [(("A, b").toList), (("front").toList)])[1]? =
      ([(("A, b").toList), (("front").toList)])[1]? :=
  ⟨by decide,
    ((c5_frame [(("Tags").toList)] [[(("A, b").toList), (("front").toList)]] 0
        (by decide)).2 _ (by decide)).2 1 (by decide)⟩

/-- C6: with the Tags column at index `i`, a data row whose length is at
least `i + 1` has its element at `i` replaced by its normalized form, and
every shorter row is passed through unchanged (no padding, no error; the
embedding is total). -/
theorem c6_replace (header : List (List Char)) (rest : List (List (List Char)))
    (i : Nat) (h : findTagsIdx header = some i) :
    process_rows (header :: rest) = header :: rest.map (fixRow i) ∧
    (∀ r : List (List Char), ∀ cell, r[i]? = some cell →
      fixRow i r = r.set i (normalize_tag_cell (some cell))) ∧
    (∀ r : List (List Char), r.length ≤ i → fixRow i r = r) := by
  refine ⟨by simp [process_rows, h], ?_, ?_⟩
  · intro r cell hr
    unfold fixRow
    rw [hr]
  · intro r hlen
    unfold fixRow
    rw [List.getElem?_eq_none hlen]

/-- C6 witness: with Tags at index 0, a one-cell row is rewritten in place
and the empty (ragged) row passes through unchanged. -/
theorem c6_witness :
    findTagsIdx [(("Tags").toList)] = some 0 ∧
    fixRow 0 [(("A, a").toList)] =
      ([(("A, a").toList)]).set 0 (normalize_tag_cell (some (("A, a").toList))) ∧
    fixRow 0 ([] : List (List Char)) = [] :=
  ⟨by decide,
    (c6_replace [(("Tags").toList)] [] 0 (by decide)).2.1 _ _ (by decide),
    (c6_replace [(("Tags").toList)] [] 0 (by decide)).2.2 [] (by decide)⟩

/-- C7: when no header column strips-and-lowercases to `"tags"`, processing
is a pure copy: the output row list equals the input row list. -/
theorem c7_copy (header : List (List Char)) (rest : List (List (List Char)))
    (h : ∀ col ∈ header, lowerStr (strip col) ≠ tagsLit) :
    process_rows (header :: rest) = header :: rest := by
  have hnone : findTagsIdx header = none := findTagsIdxFrom_none header 0 h
  simp [process_rows, hnone]

/-- C7 witness on a concrete two-column header without a Tags column. -/
theorem c7_witness :
    process_rows ([(("Front").toList), (("Back").toList)] :: [[(("x").toList)]]) =
      [(("Front").toList), (("Back").toList)] :: [[(("x").toList)]] :=
  c7_copy _ _ (by decide)

/-- C8: in the directory driver, with each file's processing outcome
modelled as an `Except` value, a file whose processing raises an exception
contributes exactly the report entry `(name, "error: " ++ msg, "")`, the
files after it are still all processed in order, and a successful file
contributes `(name, "ok", out)`. -/
theorem c8_error_isolated (f : List Char → Except (List Char) (List Char))
    (files1 files2 : List (List Char)) (n e : List Char)
    (hf : f n = Except.error e) :
    process_folder_report f (files1 ++ n :: files2) =
      process_folder_report f files1 ++
        (n, errLit ++ e, ([] : List Char)) :: process_folder_report f files2 ∧
    ∀ m out, f m = Except.ok out → runFileEntry f m = (m, okLit, out) := by
  constructor
  · unfold process_folder_report
    rw [List.map_append, List.map_cons]
    simp [runFileEntry, hf]
  · intro m out hm
    unfold runFileEntry
    rw [hm]

/-- A concrete per-file outcome function used by the C8 witness: the empty
file name fails, every other file succeeds. -/
def sampleProc (m : List Char) : Except (List Char) (List Char) :=
  if m = [] then Except.error (("boom").toList) else Except.ok m

/-- C8 witness: a failing file between two good ones yields its error entry
while both neighbours are still processed. -/
theorem c8_witness :
    process_folder_report sampleProc ([(("a.csv").toList)] ++ [] :: [(("b.csv").toList)]) =
      process_folder_report sampleProc [(("a.csv").toList)] ++
        (([] : List Char), errLit ++ (("boom").toList), ([] : List Char)) ::
          process_folder_report sampleProc [(("b.csv").toList)] :=
  (c8_error_isolated sampleProc _ _ _ _ (by rfl)).1

/-- C9: a cell with no comma and at least one non-whitespace character
yields exactly one non-empty comma-split part (the whole cell), the
whitespace fallback is not taken, and the result is the single tag obtained
by stripping, collapsing whitespace runs, lowercasing, and replacing the
remaining spaces by underscores. -/
theorem c9_comma_free_single_tag (s : List Char) (h1 : (',' : Char) ∉ s)
    (h2 : ∃ c ∈ s, isWS c = false) :
    (re_split_comma_ws s).filter (fun p => decide (p ≠ [])) = [s] ∧
    normalize_tag_cell (some s) = underscore (lowerStr (collapseWS (strip s))) := by
  have hne : s ≠ [] := by
    rintro rfl
    rcases h2 with ⟨c, hc, _⟩
    exact absurd hc (List.not_mem_nil c)
  constructor
  · rw [re_split_no_comma s h1]
    simp [hne]
  · have hq : collapseWS (strip s) ≠ [] := collapse_ne_nil _ (strip_ne_nil s h2)
    have hsome : cleanOpt s = some (underscore (lowerStr (collapseWS (strip s)))) := by
      unfold cleanOpt
      rw [if_neg hq]
    exact normalize_single_some s _ h1 hne hsome

/-- C9 witness at the comma-free cell `"Hash  Map"`. -/
theorem c9_witness :
    (',' : Char) ∉ (("Hash  Map").toList) ∧
    normalize_tag_cell (some (("Hash  Map").toList)) =
      underscore (lowerStr (collapseWS (strip (("Hash  Map").toList)))) :=
  ⟨by decide, (c9_comma_free_single_tag _ (by decide) (by decide)).2⟩

/-- C10: every output of `normalize` contains no ASCII uppercase letter, its
only whitespace characters are the single-space tag separators (in
particular no token of the space split is empty, so there is no leading,
trailing or doubled space), and the space split yields pairwise-distinct
tokens. -/
theorem c10_output_invariants (cell : Option (List Char)) :
    (∀ c ∈ normalize_tag_cell cell, ¬(65 ≤ c.toNat ∧ c.toNat ≤ 90)) ∧
    (∀ c ∈ normalize_tag_cell cell, isWS c = true → c = ' ') ∧
    (normalize_tag_cell cell ≠ [] →
      ∀ tok ∈ spaceSplit (normalize_tag_cell cell), tok ≠ []) ∧
    List.Pairwise (fun a b => a ≠ b) (spaceSplit (normalize_tag_cell cell)) := by
  cases cell with
  | none =>
    refine ⟨?_, ?_, ?_, ?_⟩
    · intro c hc; exact absurd hc (List.not_mem_nil c)
    · intro c hc; exact absurd hc (List.not_mem_nil c)
    · intro hne; exact absurd rfl hne
    · exact List.pairwise_singleton _ _
  | some s =>
    have hshape : normalize_tag_cell (some s) =
        joinSp (dedupTags ((partsOf s).filterMap cleanOpt)) := rfl
    have hnodup := nodup_dedupTags ((partsOf s).filterMap cleanOpt)
    have hmem : ∀ t ∈ dedupTags ((partsOf s).filterMap cleanOpt),
        t ≠ [] ∧ ∀ c ∈ t, isWS c = false ∧ ¬(65 ≤ c.toNat ∧ c.toNat ≤ 90) := by
      intro t ht
      obtain ⟨p, _, hp⟩ := List.mem_filterMap.mp (mem_dedupTags _ t ht)
      obtain ⟨hne, hall⟩ := tag_inv p t hp
      exact ⟨hne, fun c hc => ⟨(hall c hc).1, (hall c hc).2.1⟩⟩
    rw [hshape]
    generalize htags : dedupTags ((partsOf s).filterMap cleanOpt) = tags at hnodup hmem
    have hnospace : ∀ t ∈ tags, (' ' : Char) ∉ t := by
      intro t ht hsp
      exact absurd ((hmem t ht).2 ' ' hsp).1 (by decide)
    refine ⟨?_, ?_, ?_, ?_⟩
    · intro c hc
      cases mem_joinSp tags c hc with
      | inl h2 => subst h2; decide
      | inr h2 =>
        obtain ⟨t, ht, hct⟩ := h2
        exact ((hmem t ht).2 c hct).2
    · intro c hc _
      cases mem_joinSp tags c hc with
      | inl h2 => exact h2
      | inr h2 =>
        obtain ⟨t, ht, hct⟩ := h2
        exact absurd ‹isWS c = true› (by rw [((hmem t ht).2 c hct).1]; exact Bool.false_ne_true)
    · intro hne tok htok
      cases tags with
      | nil => exact absurd rfl hne
      | cons t rest =>
        rw [spaceSplit_joinSp _ (by simp) hnospace] at htok
        exact (hmem tok htok).1
    · cases tags with
      | nil => exact List.pairwise_singleton _ _
      | cons t rest =>
        rw [spaceSplit_joinSp _ (by simp) hnospace]
        exact hnodup

/-- C10 witness: concrete distinct space-split tokens. -/
theorem c10_witness :
    List.Pairwise (fun a b => a ≠ b)
      (spaceSplit (normalize_tag_cell (some (("A  b, C, a").toList)))) :=
  (c10_output_invariants (some (("A  b, C, a").toList))).2.2.2

